import Mathlib

/-!
# Verification of the Snowflake id generator (`migrate/id_handler.py`)

Shallow embedding of the `IdWorker` class.  Python integers are embedded as
`ℤ`; Python's bitwise `|`, `&`, `^`, `<<`, `>>` on (possibly negative)
integers are two's-complement operations on unbounded integers, which is
exactly the semantics of `Int.lor`, `Int.land`, `Int.xor` and the
`ShiftLeft ℤ` / `Int.shiftRight` operations of Mathlib/core.

The wall clock (`time.time()`, read through `_time_gen`) is modelled as an
oracle: a list of millisecond readings that the generator consumes one by
one.  An empty list means the oracle has no further reading; a run that
asks for a reading that is not there is reported as `diverged` (this is in
particular how the non-terminating spin of `_till_next_millis` on an
everlasting stream shows up on finite approximations of the stream).
-/

namespace Migrate

/-- `self.twepoch = 1546272000000` (2019-01-01, milliseconds). -/
def twepoch : ℤ := 1546272000000

/-- `self.worker_id_bits = 5` -/
def worker_id_bits : ℤ := 5

/-- `self.data_center_id_bits = 5` -/
def data_center_id_bits : ℤ := 5

/-- `self.max_worker_id = -1 ^ (-1 << self.worker_id_bits)` -/
def max_worker_id : ℤ := Int.xor (-1) ((-1) <<< worker_id_bits)

/-- `self.max_data_center_id = -1 ^ (-1 << self.data_center_id_bits)` -/
def max_data_center_id : ℤ := Int.xor (-1) ((-1) <<< data_center_id_bits)

/-- `self.sequence_bits = 12` -/
def sequence_bits : ℤ := 12

/-- `self.worker_id_shift = self.sequence_bits` -/
def worker_id_shift : ℤ := sequence_bits

/-- `self.data_center_id_shift = self.sequence_bits + self.worker_id_bits` -/
def data_center_id_shift : ℤ := sequence_bits + worker_id_bits

/-- `self.timestamp_left_shift = self.sequence_bits + self.worker_id_bits
    + self.data_center_id_bits` -/
def timestamp_left_shift : ℤ := sequence_bits + worker_id_bits + data_center_id_bits

/-- `self.sequence_mask = -1 ^ (-1 << self.sequence_bits)` -/
def sequence_mask : ℤ := Int.xor (-1) ((-1) <<< sequence_bits)

/-- The exceptions raised by `id_handler.py`: `InputError("worker_id", ...)`,
`InputError("data_center_id", ...)`, `InvalidSystemClock(...)` (whose message
reports the timestamp generation must wait until), `InvalidUserAgentError`. -/
inductive IdError where
  | inputErrorWorkerId
  | inputErrorDataCenterId
  | invalidSystemClock (untilTs : ℤ)
  | invalidUserAgentError
deriving DecidableEq

/-- The mutable attributes of an `IdWorker` instance (the constant attributes
`twepoch`, the bit widths, shifts and masks are always initialized to the same
values and are modelled as the top-level constants above; the `logger` and the
compiled user-agent regular expression carry no state relevant to any claim). -/
structure IdWorker where
  worker_id : ℤ
  data_center_id : ℤ
  ids_generated : ℤ
  sequence : ℤ
  last_timestamp : ℤ
deriving DecidableEq

/-- `IdWorker.__init__(worker_id, data_center_id)`: sets the attributes, then
performs the two sanity checks and raises `InputError` if one fails.
(The attribute assignments before a raise die with the failed construction, so
a failed construction is modelled as just the error.) -/
def IdWorker.new (worker_id : ℤ) (data_center_id : ℤ) : Except IdError IdWorker :=
  if worker_id > max_worker_id ∨ worker_id < 0 then
    .error .inputErrorWorkerId
  else if data_center_id > max_data_center_id ∨ data_center_id < 0 then
    .error .inputErrorDataCenterId
  else
    .ok { worker_id := worker_id
          data_center_id := data_center_id
          ids_generated := 0
          sequence := 0
          last_timestamp := -1 }

/-- `IdWorker._till_next_millis(self, last_timestamp)`:
```
timestamp = self._time_gen()
while last_timestamp <= timestamp:
    timestamp = self._time_gen()
return timestamp
```
Each `_time_gen()` consumes one oracle reading; `none` means the oracle ran
out while the loop was still spinning. -/
def till_next_millis (last_timestamp : ℤ) : List ℤ → Option (ℤ × List ℤ)
  | [] => none
  | t :: ts =>
    if last_timestamp ≤ t then till_next_millis last_timestamp ts
    else some (t, ts)

/-- The bit packing on the `new_id = ...` line of `IdWorker._next_id`:
`((timestamp - self.twepoch) << self.timestamp_left_shift) |
 (self.data_center_id << self.data_center_id_shift) |
 (self.worker_id << self.worker_id_shift) | self.sequence`  (with Python's
left-associated `|`). -/
def pack (timestamp data_center_id worker_id sequence : ℤ) : ℤ :=
  Int.lor
    (Int.lor
      (Int.lor ((timestamp - twepoch) <<< timestamp_left_shift)
        (data_center_id <<< data_center_id_shift))
      (worker_id <<< worker_id_shift))
    sequence

/-- Result of one `_next_id()` call: a minted id, a raised exception, or
divergence (the clock oracle was exhausted while `_till_next_millis` spun). -/
inductive NextIdOutcome where
  | minted (id : ℤ)
  | raised (e : IdError)
  | diverged
deriving DecidableEq

/-- `IdWorker._next_id(self)`, returning the outcome together with the state
of the instance afterwards and the unconsumed clock readings.  On
`InvalidSystemClock` nothing was mutated; on divergence the state holds the
mutation (`self.sequence` already wrapped to 0) that happened before the
never-returning `_till_next_millis` call. -/
def next_id (st : IdWorker) (clock : List ℤ) : NextIdOutcome × IdWorker × List ℤ :=
  match clock with
  | [] => (.diverged, st, [])
  | t :: ts =>
    if st.last_timestamp > t then
      (.raised (.invalidSystemClock st.last_timestamp), st, ts)
    else if st.last_timestamp = t then
      let seq := Int.land (st.sequence + 1) sequence_mask
      if seq = 0 then
        match till_next_millis st.last_timestamp ts with
        | none => (.diverged, { st with sequence := seq }, [])
        | some (t2, ts2) =>
          (.minted (pack t2 st.data_center_id st.worker_id seq),
           { st with sequence := seq, last_timestamp := t2,
                     ids_generated := st.ids_generated + 1 }, ts2)
      else
        (.minted (pack t st.data_center_id st.worker_id seq),
         { st with sequence := seq, last_timestamp := t,
                   ids_generated := st.ids_generated + 1 }, ts)
    else
      (.minted (pack t st.data_center_id st.worker_id 0),
       { st with sequence := 0, last_timestamp := t,
                 ids_generated := st.ids_generated + 1 }, ts)

/-- Head character class of the user-agent pattern `^[a-zA-Z][a-zA-Z\-0-9]*$`. -/
def ua_head_char (c : Char) : Bool :=
  ('a' ≤ c && c ≤ 'z') || ('A' ≤ c && c ≤ 'Z')

/-- Tail character class `[a-zA-Z\-0-9]` of the user-agent pattern. -/
def ua_tail_char (c : Char) : Bool :=
  ua_head_char c || c = '-' || ('0' ≤ c && c ≤ '9')

/-- `IdWorker._valid_user_agent(self, user_agent)`: whether
`re.search("^[a-zA-Z][a-zA-Z\-0-9]*$", user_agent)` finds a match (the
trailing-newline nuance of `$` is irrelevant to the claims, which only
concern reachability of the validation path). -/
def valid_user_agent (s : String) : Bool :=
  match s.data with
  | [] => false
  | c :: cs => ua_head_char c && cs.all ua_tail_char

/-- Result of a `get_id` call as seen by the caller. -/
inductive GetIdOutcome where
  | ok (s : String)
  | raised (e : IdError)
  | diverged
deriving DecidableEq

/-- The FIRST `def get_id(self, useragent)` of the source: validates the user
agent (raising `InvalidUserAgentError`) and then returns the integer
`self._next_id()`.  In Python this method is immediately shadowed by the
no-argument `get_id` below (a later `def` with the same name replaces the
earlier one in the class dict), so this variant is dead code on every live
path; it is kept here to show what the unreachable validation would do. -/
def get_id_useragent (st : IdWorker) (clock : List ℤ) (useragent : String) :
    GetIdOutcome × IdWorker × List ℤ :=
  if ¬ valid_user_agent useragent then
    (.raised .invalidUserAgentError, st, clock)
  else
    match next_id st clock with
    | (.minted id, st', rest) => (.ok (toString id), st', rest)
    | (.raised e, st', rest) => (.raised e, st', rest)
    | (.diverged, st', rest) => (.diverged, st', rest)

/-- The SECOND `def get_id(self)` of the source — the effective one: returns
`str(self._next_id())` and performs no user-agent validation at all. -/
def get_id (st : IdWorker) (clock : List ℤ) : GetIdOutcome × IdWorker × List ℤ :=
  match next_id st clock with
  | (.minted id, st', rest) => (.ok (toString id), st', rest)
  | (.raised e, st', rest) => (.raised e, st', rest)
  | (.diverged, st', rest) => (.diverged, st', rest)

/-- `IdWorker.get_worker_id(self)`. -/
def get_worker_id (st : IdWorker) : ℤ := st.worker_id

/-- `IdWorker.get_datacenter_id(self)`. -/
def get_datacenter_id (st : IdWorker) : ℤ := st.data_center_id

/-- `self._next_id()` repeated `n` times, collecting the minted ids; `none`
as soon as one call does not mint (raises or diverges). -/
def mintN : IdWorker → List ℤ → Nat → Option (List ℤ × IdWorker × List ℤ)
  | st, clock, 0 => some ([], st, clock)
  | st, clock, n + 1 =>
    match next_id st clock with
    | (.minted id, st', clock') =>
      match mintN st' clock' n with
      | some (ids, st'', clock'') => some (id :: ids, st'', clock'')
      | none => none
    | _ => none

/-- The well-formedness that `IdWorker.new` establishes and `next_id`
preserves: identity fields within their 5-bit ranges, sequence within its
12-bit range. -/
def WF (st : IdWorker) : Prop :=
  0 ≤ st.worker_id ∧ st.worker_id ≤ 31 ∧
  0 ≤ st.data_center_id ∧ st.data_center_id ≤ 31 ∧
  0 ≤ st.sequence ∧ st.sequence ≤ 4095

instance (st : IdWorker) : Decidable (WF st) := by
  unfold WF; infer_instance

/-- Decoding the worker-id field back out of an identifier with the
documented shifts: `(id >> 12) & 31`. -/
def decode_worker_id (id : ℤ) : ℤ := Int.land (Int.shiftRight id 12) 31

/-- Decoding the datacenter-id field back out of an identifier with the
documented shifts: `(id >> 17) & 31`. -/
def decode_data_center_id (id : ℤ) : ℤ := Int.land (Int.shiftRight id 17) 31

/-! ## Bridge lemmas: two's-complement bit operations as arithmetic -/

/-- Clearing the bits of `c < 2 ^ k` from a number whose low `k` bits are all
ones subtracts `c`. -/
theorem ldiff_low_ones (n c k : ℕ) (hc : c < 2 ^ k) :
    Nat.ldiff (2 ^ k * n + (2 ^ k - 1)) c = 2 ^ k * n + (2 ^ k - 1 - c) := by
  have h1 : 2 ^ k - 1 < 2 ^ k := Nat.sub_lt (Nat.two_pow_pos k) Nat.one_pos
  have h2 : 2 ^ k - 1 - c < 2 ^ k := lt_of_le_of_lt (Nat.sub_le _ _) h1
  apply Nat.eq_of_testBit_eq
  intro i
  rw [Nat.testBit_ldiff, Nat.testBit_mul_pow_two_add _ h1, Nat.testBit_mul_pow_two_add _ h2]
  by_cases hik : i < k
  · simp only [hik, if_true]
    rw [show 2 ^ k - 1 - c = 2 ^ k - (c + 1) by omega,
      Nat.testBit_two_pow_sub_succ hc, Nat.testBit_two_pow_sub_one]
  · simp only [hik, if_false]
    have hci : c < 2 ^ i :=
      lt_of_lt_of_le hc (Nat.pow_le_pow_right (by norm_num) (le_of_not_lt hik))
    rw [Nat.testBit_lt_two_pow hci]
    simp

/-- Clearing the bits of `m` from `2 ^ k - 1` leaves the complement of
`m % 2 ^ k` in `k` bits. -/
theorem ldiff_ones (m k : ℕ) : Nat.ldiff (2 ^ k - 1) m = 2 ^ k - 1 - m % 2 ^ k := by
  have hm : m % 2 ^ k < 2 ^ k := Nat.mod_lt _ (Nat.two_pow_pos k)
  apply Nat.eq_of_testBit_eq
  intro i
  rw [Nat.testBit_ldiff, Nat.testBit_two_pow_sub_one,
    show 2 ^ k - 1 - m % 2 ^ k = 2 ^ k - (m % 2 ^ k + 1) by omega,
    Nat.testBit_two_pow_sub_succ hm, Nat.testBit_mod_two_pow]
  by_cases hik : i < k <;> simp [hik]

theorem lor_ofNat_ofNat (m n : ℕ) : Int.lor (m : ℤ) (n : ℤ) = ((m ||| n : ℕ) : ℤ) := rfl

theorem lor_negSucc_ofNat (m n : ℕ) :
    Int.lor (Int.negSucc m) (n : ℤ) = Int.negSucc (Nat.ldiff m n) := rfl

theorem land_ofNat_ofNat (m n : ℕ) : Int.land (m : ℤ) (n : ℤ) = ((m &&& n : ℕ) : ℤ) := rfl

theorem land_negSucc_ofNat (m n : ℕ) :
    Int.land (Int.negSucc m) (n : ℤ) = ((Nat.ldiff n m : ℕ) : ℤ) := rfl

/-- Two's-complement `or` of a multiple of `2 ^ k` with `0 ≤ b < 2 ^ k` is
addition, for every integer multiplier (including negative ones). -/
theorem lor_mul_pow_add (a : ℤ) (k : ℕ) (b : ℤ) (hb0 : 0 ≤ b) (hbk : b < 2 ^ k) :
    Int.lor (a * 2 ^ k) b = a * 2 ^ k + b := by
  obtain ⟨c, rfl⟩ := Int.eq_ofNat_of_zero_le hb0
  have hc : c < 2 ^ k := by exact_mod_cast hbk
  cases a with
  | ofNat n =>
    have e1 : (Int.ofNat n) * 2 ^ k = ((2 ^ k * n : ℕ) : ℤ) := by
      show ((n : ℕ) : ℤ) * 2 ^ k = ((2 ^ k * n : ℕ) : ℤ)
      push_cast
      ring
    rw [e1, lor_ofNat_ofNat, ← Nat.mul_add_lt_is_or hc n]
    push_cast
    ring
  | negSucc n =>
    have h2k : 1 ≤ 2 ^ k := Nat.one_le_two_pow
    have hpos : 1 ≤ (n + 1) * 2 ^ k := Nat.mul_pos (Nat.succ_pos n) (Nat.two_pow_pos k)
    have hsplit : (n + 1) * 2 ^ k = 2 ^ k * n + 2 ^ k := by ring
    have e1 : (Int.negSucc n) * 2 ^ k = Int.negSucc ((n + 1) * 2 ^ k - 1) := by
      rw [Int.negSucc_eq, Int.negSucc_eq, Nat.cast_sub hpos]
      push_cast
      ring
    rw [e1, lor_negSucc_ofNat,
      show (n + 1) * 2 ^ k - 1 = 2 ^ k * n + (2 ^ k - 1) by omega,
      ldiff_low_ones n c k hc]
    simp only [Int.negSucc_eq]
    omega

/-- Two's-complement `and` with the mask `2 ^ k - 1` is `emod` by `2 ^ k`,
for every integer (including negative ones). -/
theorem land_two_pow_sub_one (x : ℤ) (k : ℕ) :
    Int.land x ((2 : ℤ) ^ k - 1) = x % 2 ^ k := by
  have h2k : 1 ≤ 2 ^ k := Nat.one_le_two_pow
  have hcast : ((2 ^ k - 1 : ℕ) : ℤ) = (2 : ℤ) ^ k - 1 := by
    push_cast [h2k]
    ring
  cases x with
  | ofNat m =>
    rw [show (Int.ofNat m) = ((m : ℕ) : ℤ) from rfl, ← hcast, land_ofNat_ofNat,
      Nat.and_pow_two_sub_one_eq_mod]
    push_cast
    ring
  | negSucc m =>
    have hb : (0 : ℤ) < 2 ^ k := by positivity
    rw [← hcast, land_negSucc_ofNat, ldiff_ones, Int.negSucc_emod _ hb]
    have hm : m % 2 ^ k < 2 ^ k := Nat.mod_lt _ (Nat.two_pow_pos k)
    have hmz : ((m : ℤ)) % ((2 : ℤ) ^ k) = ((m % 2 ^ k : ℕ) : ℤ) := by
      push_cast
      ring
    rw [hmz]
    omega

theorem shiftLeft_tls (x : ℤ) : x <<< timestamp_left_shift = x * 2 ^ 22 := by
  rw [show timestamp_left_shift = ((22 : ℕ) : ℤ) by decide, Int.shiftLeft_eq_mul_pow]
  norm_num

theorem shiftLeft_dcs (x : ℤ) : x <<< data_center_id_shift = x * 2 ^ 17 := by
  rw [show data_center_id_shift = ((17 : ℕ) : ℤ) by decide, Int.shiftLeft_eq_mul_pow]
  norm_num

theorem shiftLeft_ws (x : ℤ) : x <<< worker_id_shift = x * 2 ^ 12 := by
  rw [show worker_id_shift = ((12 : ℕ) : ℤ) by decide, Int.shiftLeft_eq_mul_pow]
  norm_num

/-- Within the field bounds that `WF` guarantees, the packed identifier is the
place-value sum of its four fields. -/
theorem pack_eq (t dc w s : ℤ) (hdc0 : 0 ≤ dc) (hdc : dc ≤ 31)
    (hw0 : 0 ≤ w) (hw : w ≤ 31) (hs0 : 0 ≤ s) (hs : s ≤ 4095) :
    pack t dc w s = (t - twepoch) * 2 ^ 22 + dc * 2 ^ 17 + w * 2 ^ 12 + s := by
  unfold pack
  rw [shiftLeft_tls, shiftLeft_dcs, shiftLeft_ws]
  rw [lor_mul_pow_add (t - twepoch) 22 (dc * 2 ^ 17) (by positivity)
      (by norm_num; omega),
    show (t - twepoch) * 2 ^ 22 + dc * 2 ^ 17 = ((t - twepoch) * 2 ^ 5 + dc) * 2 ^ 17 by ring,
    lor_mul_pow_add _ 17 (w * 2 ^ 12) (by positivity) (by norm_num; omega),
    show ((t - twepoch) * 2 ^ 5 + dc) * 2 ^ 17 + w * 2 ^ 12
        = ((t - twepoch) * 2 ^ 10 + dc * 2 ^ 5 + w) * 2 ^ 12 by ring,
    lor_mul_pow_add _ 12 s hs0 (by norm_num; omega)]

/-- The sequence update `(self.sequence + 1) & self.sequence_mask` is a
modulus. -/
theorem land_sequence_mask (x : ℤ) : Int.land x sequence_mask = x % 4096 := by
  have h := land_two_pow_sub_one x 12
  norm_num at h
  rw [show sequence_mask = (4095 : ℤ) by decide, h]

/-- `(id >> 12) & 31` arithmetically. -/
theorem decode_worker_id_eq (id : ℤ) : decode_worker_id id = id / 2 ^ 12 % 2 ^ 5 := by
  unfold decode_worker_id
  rw [← Int.shiftRight_eq, Int.shiftRight_eq_div_pow,
    show (31 : ℤ) = 2 ^ 5 - 1 by norm_num, land_two_pow_sub_one]
  norm_num

/-- `(id >> 17) & 31` arithmetically. -/
theorem decode_data_center_id_eq (id : ℤ) :
    decode_data_center_id id = id / 2 ^ 17 % 2 ^ 5 := by
  unfold decode_data_center_id
  rw [← Int.shiftRight_eq, Int.shiftRight_eq_div_pow,
    show (31 : ℤ) = 2 ^ 5 - 1 by norm_num, land_two_pow_sub_one]
  norm_num

/-! ## Structural lemmas about `next_id` runs -/

theorem chain_le_of_mem {a : ℤ} {l : List ℤ} (h : List.Chain' (· ≤ ·) (a :: l)) :
    ∀ x ∈ l, a ≤ x := by
  induction l generalizing a with
  | nil => simp
  | cons b l ih =>
    intro x hx
    have hab : a ≤ b := List.rel_of_chain_cons h
    cases List.mem_cons.mp hx with
    | inl he => exact he ▸ hab
    | inr hx' => exact le_trans hab (ih (List.Chain'.tail h) x hx')

/-- On a stream that never drops below `lt`, the (inverted) wait loop of
`_till_next_millis` never exits. -/
theorem till_next_millis_none (lt : ℤ) (l : List ℤ) (h : ∀ x ∈ l, lt ≤ x) :
    till_next_millis lt l = none := by
  induction l with
  | nil => rfl
  | cons t ts ih =>
    simp only [till_next_millis]
    rw [if_pos (h t (by simp))]
    exact ih fun x hx => h x (by simp [hx])

/-- Inversion: everything a successful (`minted`) `_next_id` call can be. -/
theorem next_id_minted_inv {st : IdWorker} {clock : List ℤ} {id : ℤ} {st' : IdWorker}
    {rest : List ℤ} (h : next_id st clock = (.minted id, st', rest)) :
    ∃ t ts, clock = t :: ts ∧ st.last_timestamp ≤ t ∧
      ((st.last_timestamp = t ∧
          Int.land (st.sequence + 1) sequence_mask ≠ 0 ∧
          st' = { st with sequence := Int.land (st.sequence + 1) sequence_mask,
                          last_timestamp := t,
                          ids_generated := st.ids_generated + 1 } ∧
          rest = ts ∧
          id = pack t st.data_center_id st.worker_id
            (Int.land (st.sequence + 1) sequence_mask)) ∨
        (st.last_timestamp = t ∧
          Int.land (st.sequence + 1) sequence_mask = 0 ∧
          (∃ t2 ts2, till_next_millis st.last_timestamp ts = some (t2, ts2) ∧
            st' = { st with sequence := 0, last_timestamp := t2,
                            ids_generated := st.ids_generated + 1 } ∧
            rest = ts2 ∧
            id = pack t2 st.data_center_id st.worker_id 0)) ∨
        (st.last_timestamp < t ∧
          st' = { st with sequence := 0, last_timestamp := t,
                          ids_generated := st.ids_generated + 1 } ∧
          rest = ts ∧
          id = pack t st.data_center_id st.worker_id 0)) := by
  cases clock with
  | nil => simp [next_id] at h
  | cons t ts =>
    simp only [next_id] at h
    by_cases h1 : st.last_timestamp > t
    · rw [if_pos h1] at h
      simp at h
    · rw [if_neg h1] at h
      by_cases h2 : st.last_timestamp = t
      · rw [if_pos h2] at h
        by_cases h3 : Int.land (st.sequence + 1) sequence_mask = 0
        · rw [if_pos h3] at h
          cases htill : till_next_millis st.last_timestamp ts with
          | none =>
            rw [htill] at h
            simp at h
          | some p =>
            obtain ⟨t2, ts2⟩ := p
            rw [htill] at h
            simp only [Prod.mk.injEq, NextIdOutcome.minted.injEq] at h
            obtain ⟨hid, hst, hrest⟩ := h
            refine ⟨t, ts, rfl, le_of_eq h2,
              Or.inr (Or.inl ⟨h2, h3, t2, ts2, htill, ?_, hrest.symm, by rw [← hid, h3]⟩)⟩
            rw [← hst, h3]
        · rw [if_neg h3] at h
          simp only [Prod.mk.injEq, NextIdOutcome.minted.injEq] at h
          obtain ⟨hid, hst, hrest⟩ := h
          exact ⟨t, ts, rfl, le_of_eq h2,
            Or.inl ⟨h2, h3, hst.symm, hrest.symm, hid.symm⟩⟩
      · have hlt : st.last_timestamp < t := lt_of_le_of_ne (not_lt.mp h1) h2
        rw [if_neg h2] at h
        simp only [Prod.mk.injEq, NextIdOutcome.minted.injEq] at h
        obtain ⟨hid, hst, hrest⟩ := h
        exact ⟨t, ts, rfl, le_of_lt hlt,
          Or.inr (Or.inr ⟨hlt, hst.symm, hrest.symm, hid.symm⟩)⟩

/-- A minted call from a well-formed state under a monotone clock: the new
state is well-formed, the remaining readings are monotone and not below the
newly recorded timestamp, the identity fields survive, and the id is the
packing of the post-state fields. -/
theorem next_id_minted_step {st : IdWorker} {clock : List ℤ} {id : ℤ} {st' : IdWorker}
    {rest : List ℤ} (hwf : WF st) (hchain : List.Chain' (· ≤ ·) clock)
    (h : next_id st clock = (.minted id, st', rest)) :
    WF st' ∧ List.Chain' (· ≤ ·) rest ∧ (∀ x ∈ rest, st'.last_timestamp ≤ x) ∧
      st'.worker_id = st.worker_id ∧ st'.data_center_id = st.data_center_id ∧
      id = pack st'.last_timestamp st.data_center_id st.worker_id st'.sequence := by
  obtain ⟨hw0, hw1, hd0, hd1, hs0, hs1⟩ := hwf
  obtain ⟨t, ts, rfl, hle, hcase⟩ := next_id_minted_inv h
  have htail : List.Chain' (· ≤ ·) ts := List.Chain'.tail hchain
  have hmem : ∀ x ∈ ts, t ≤ x := chain_le_of_mem hchain
  rcases hcase with ⟨heq, hne, hst, hrest, hid⟩ | ⟨heq, hz, t2, ts2, htill, hst, hrest, hid⟩ |
    ⟨hlt, hst, hrest, hid⟩
  · subst hst hrest
    rw [land_sequence_mask] at hne hid ⊢
    refine ⟨⟨hw0, hw1, hd0, hd1, ?_, ?_⟩, htail, hmem, rfl, rfl, hid⟩
    · show 0 ≤ (st.sequence + 1) % 4096
      omega
    · show (st.sequence + 1) % 4096 ≤ 4095
      omega
  · exfalso
    rw [till_next_millis_none st.last_timestamp ts (heq ▸ hmem)] at htill
    exact Option.noConfusion htill
  · subst hst hrest
    exact ⟨⟨hw0, hw1, hd0, hd1, le_refl 0, by norm_num⟩, htail, hmem, rfl, rfl, hid⟩

/-- A minted call from a well-formed state whose pending clock readings are
all at least `last_timestamp` and monotone mints an id strictly greater than
the packing of the pre-state fields. -/
theorem next_id_minted_gt {st : IdWorker} {clock : List ℤ} {id : ℤ} {st' : IdWorker}
    {rest : List ℤ} (hwf : WF st) (hall : ∀ x ∈ clock, st.last_timestamp ≤ x)
    (h : next_id st clock = (.minted id, st', rest)) :
    pack st.last_timestamp st.data_center_id st.worker_id st.sequence < id := by
  obtain ⟨hw0, hw1, hd0, hd1, hs0, hs1⟩ := hwf
  obtain ⟨t, ts, rfl, hle, hcase⟩ := next_id_minted_inv h
  have hmem : ∀ x ∈ ts, st.last_timestamp ≤ x := fun x hx => hall x (by simp [hx])
  rcases hcase with ⟨heq, hne, hst, hrest, hid⟩ | ⟨heq, hz, t2, ts2, htill, hst, hrest, hid⟩ |
    ⟨hlt, hst, hrest, hid⟩
  · rw [land_sequence_mask] at hne hid
    have hseq : (st.sequence + 1) % 4096 = st.sequence + 1 := by omega
    rw [hid, heq, hseq, pack_eq _ _ _ _ hd0 hd1 hw0 hw1 hs0 hs1,
      pack_eq _ _ _ _ hd0 hd1 hw0 hw1 (by omega) (by omega)]
    omega
  · exfalso
    rw [till_next_millis_none st.last_timestamp ts hmem] at htill
    exact Option.noConfusion htill
  · rw [hid, pack_eq _ _ _ _ hd0 hd1 hw0 hw1 hs0 hs1,
      pack_eq _ _ _ _ hd0 hd1 hw0 hw1 (le_refl 0) (by norm_num)]
    omega

/-- Inversion: a raised exception from `_next_id` is `InvalidSystemClock`
carrying `self.last_timestamp`, and nothing was mutated. -/
theorem next_id_raised_inv {st : IdWorker} {clock : List ℤ} {e : IdError}
    {st' : IdWorker} {rest : List ℤ}
    (h : next_id st clock = (.raised e, st', rest)) :
    e = .invalidSystemClock st.last_timestamp ∧ st' = st := by
  cases clock with
  | nil => simp [next_id] at h
  | cons t ts =>
    simp only [next_id] at h
    by_cases h1 : st.last_timestamp > t
    · rw [if_pos h1] at h
      simp only [Prod.mk.injEq, NextIdOutcome.raised.injEq] at h
      exact ⟨h.1.symm, h.2.1.symm⟩
    · rw [if_neg h1] at h
      by_cases h2 : st.last_timestamp = t
      · rw [if_pos h2] at h
        by_cases h3 : Int.land (st.sequence + 1) sequence_mask = 0
        · rw [if_pos h3] at h
          cases htill : till_next_millis st.last_timestamp ts with
          | none => rw [htill] at h; simp at h
          | some p => obtain ⟨t2, ts2⟩ := p; rw [htill] at h; simp at h
        · rw [if_neg h3] at h
          simp at h
      · rw [if_neg h2] at h
        simp at h

/-- The linear value of a minted id in terms of the post-state fields. -/
theorem minted_id_form {st : IdWorker} {clock : List ℤ} {id : ℤ} {st' : IdWorker}
    {rest : List ℤ} (hwf : WF st)
    (h : next_id st clock = (.minted id, st', rest)) :
    id = (st'.last_timestamp - twepoch) * 2 ^ 22 + st.data_center_id * 2 ^ 17
        + st.worker_id * 2 ^ 12 + st'.sequence
      ∧ 0 ≤ st'.sequence ∧ st'.sequence ≤ 4095 := by
  obtain ⟨hw0, hw1, hd0, hd1, hs0, hs1⟩ := hwf
  obtain ⟨t, ts, rfl, hle, hcase⟩ := next_id_minted_inv h
  rcases hcase with ⟨heq, hne, hst, hrest, hid⟩ | ⟨heq, hz, t2, ts2, htill, hst, hrest, hid⟩ |
    ⟨hlt, hst, hrest, hid⟩
  · subst hst
    rw [land_sequence_mask] at hid
    dsimp only
    rw [land_sequence_mask, hid,
      pack_eq _ _ _ _ hd0 hd1 hw0 hw1 (by omega) (by omega)]
    omega
  · subst hst
    dsimp only
    rw [hid, pack_eq _ _ _ _ hd0 hd1 hw0 hw1 (le_refl 0) (by norm_num)]
    omega
  · subst hst
    dsimp only
    rw [hid, pack_eq _ _ _ _ hd0 hd1 hw0 hw1 (le_refl 0) (by norm_num)]
    omega

/-- All ids minted by a run of `_next_id` calls from a well-formed state under
a monotone clock not behind `last_timestamp` strictly exceed, in order, the
packing of the starting state. -/
theorem mintN_chain (n : Nat) :
    ∀ (st : IdWorker) (clock ids : List ℤ) (st' : IdWorker) (clock' : List ℤ),
    WF st → List.Chain' (· ≤ ·) clock → (∀ x ∈ clock, st.last_timestamp ≤ x) →
    mintN st clock n = some (ids, st', clock') →
    List.Chain' (· < ·)
      (pack st.last_timestamp st.data_center_id st.worker_id st.sequence :: ids) := by
  induction n with
  | zero =>
    intro st clock ids st' clock' hwf hchain hall h
    simp only [mintN, Option.some.injEq, Prod.mk.injEq] at h
    rw [← h.1]
    simp
  | succ n ih =>
    intro st clock ids st' clock' hwf hchain hall h
    simp only [mintN] at h
    cases h1 : next_id st clock with
    | mk outcome p =>
      obtain ⟨st1, clock1⟩ := p
      rw [h1] at h
      cases outcome with
      | raised e => simp at h
      | diverged => simp at h
      | minted id1 =>
        dsimp only at h
        cases h2 : mintN st1 clock1 n with
        | none => rw [h2] at h; simp at h
        | some q =>
          obtain ⟨ids1, st2, clock2⟩ := q
          rw [h2] at h
          simp only [Option.some.injEq, Prod.mk.injEq] at h
          obtain ⟨hids, -, -⟩ := h
          obtain ⟨hwf1, hchain1, hall1, hwid, hdid, hid1⟩ := next_id_minted_step hwf hchain h1
          have hgt := next_id_minted_gt hwf hall h1
          have hch := ih st1 clock1 ids1 st2 clock2 hwf1 hchain1 hall1 h2
          have hpk : pack st1.last_timestamp st1.data_center_id st1.worker_id st1.sequence
              = id1 := by
            rw [hwid, hdid, ← hid1]
          rw [hpk] at hch
          rw [← hids]
          exact List.chain'_cons.mpr ⟨hgt, hch⟩

/-! ## The claims -/

/-- Claim C1 (refuted, code bug): the spec says `_till_next_millis` blocks
until the wall clock advances strictly past `last_timestamp` and returns that
larger value.  The code's loop condition is inverted
(`while last_timestamp <= timestamp`), so with `last_timestamp = 5` and clock
readings `6, 7, 4` it spins PAST the larger readings and returns `4`, a value
strictly LESS than `last_timestamp`; under a clock that never regresses it
would spin forever. -/
theorem c1_till_next_millis_bug :
    till_next_millis 5 [6, 7, 4] = some (4, []) ∧ (4 : ℤ) < 5 := by
  decide

/-- Claim C2: when the first clock reading is strictly below `last_timestamp`,
`_next_id` raises `InvalidSystemClock` (reporting `last_timestamp`) and
mutates nothing, and any later call whose reading is at least
`last_timestamp` is not rejected by that guard. -/
theorem c2_clock_backwards_rejects_without_mutation (st : IdWorker) (t : ℤ)
    (ts : List ℤ) (h : t < st.last_timestamp) :
    next_id st (t :: ts) = (.raised (.invalidSystemClock st.last_timestamp), st, ts)
    ∧ ∀ t2 ts2, st.last_timestamp ≤ t2 →
        ∀ e, (next_id st (t2 :: ts2)).1 ≠ NextIdOutcome.raised e := by
  constructor
  · simp only [next_id]
    rw [if_pos (by omega : st.last_timestamp > t)]
  · intro t2 ts2 hle e
    simp only [next_id]
    rw [if_neg (by omega : ¬st.last_timestamp > t2)]
    by_cases h2 : st.last_timestamp = t2
    · rw [if_pos h2]
      by_cases h3 : Int.land (st.sequence + 1) sequence_mask = 0
      · rw [if_pos h3]
        cases htill : till_next_millis st.last_timestamp ts2 with
        | none => simp
        | some p =>
          obtain ⟨a, b⟩ := p
          simp
      · rw [if_neg h3]
        simp
    · rw [if_neg h2]
      simp

theorem c2_witness :
    next_id ⟨0, 0, 0, 0, 10⟩ [9] =
      (.raised (.invalidSystemClock 10), ⟨0, 0, 0, 0, 10⟩, []) :=
  (c2_clock_backwards_rejects_without_mutation ⟨0, 0, 0, 0, 10⟩ 9 [] (by decide)).1

/-- Claim C3: two successive minted calls on one instance, during which the
clock readings never regress, return strictly increasing identifiers. -/
theorem c3_next_id_monotone (st : IdWorker) (clock : List ℤ) (id1 : ℤ)
    (st1 : IdWorker) (c1 : List ℤ) (id2 : ℤ) (st2 : IdWorker) (c2 : List ℤ)
    (hwf : WF st) (hchain : List.Chain' (· ≤ ·) clock)
    (h1 : next_id st clock = (.minted id1, st1, c1))
    (h2 : next_id st1 c1 = (.minted id2, st2, c2)) :
    id1 < id2 := by
  obtain ⟨hwf1, hchain1, hall1, hwid, hdid, hid1⟩ := next_id_minted_step hwf hchain h1
  have hgt := next_id_minted_gt hwf1 hall1 h2
  rw [hwid, hdid, ← hid1] at hgt
  exact hgt

theorem c3_witness :
    next_id ⟨1, 1, 0, 0, -1⟩ [1546272000000, 1546272000000]
        = (.minted 135168, ⟨1, 1, 1, 0, 1546272000000⟩, [1546272000000])
      ∧ next_id ⟨1, 1, 1, 0, 1546272000000⟩ [1546272000000]
        = (.minted 135169, ⟨1, 1, 2, 1, 1546272000000⟩, [])
      ∧ (135168 : ℤ) < 135169 :=
  ⟨by decide, by decide,
    c3_next_id_monotone ⟨1, 1, 0, 0, -1⟩ [1546272000000, 1546272000000] 135168
      ⟨1, 1, 1, 0, 1546272000000⟩ [1546272000000] 135169 ⟨1, 1, 2, 1, 1546272000000⟩ []
      (by decide) (by simp) (by decide) (by decide)⟩

/-- Claim C4: every minted identifier is exactly
`((now - twepoch) << 22) | (data_center_id << 17) | (worker_id << 12) | sequence`,
where `now` is the timestamp recorded as `last_timestamp` by that call and
`sequence` the sequence recorded by that call. -/
theorem c4_packs_fields (st : IdWorker) (clock : List ℤ) (id : ℤ) (st' : IdWorker)
    (rest : List ℤ) (h : next_id st clock = (.minted id, st', rest)) :
    id = Int.lor (Int.lor (Int.lor ((st'.last_timestamp - twepoch) <<< (22 : ℤ))
        (st.data_center_id <<< (17 : ℤ))) (st.worker_id <<< (12 : ℤ))) st'.sequence := by
  have hpack : ∀ t dc w s : ℤ, pack t dc w s
      = Int.lor (Int.lor (Int.lor ((t - twepoch) <<< (22 : ℤ)) (dc <<< (17 : ℤ)))
          (w <<< (12 : ℤ))) s := by
    intro t dc w s
    unfold pack
    rw [show timestamp_left_shift = (22 : ℤ) by decide,
      show data_center_id_shift = (17 : ℤ) by decide,
      show worker_id_shift = (12 : ℤ) by decide]
  obtain ⟨t, ts, rfl, hle, hcase⟩ := next_id_minted_inv h
  rcases hcase with ⟨heq, hne, hst, hrest, hid⟩ | ⟨heq, hz, t2, ts2, htill, hst, hrest, hid⟩ |
    ⟨hlt, hst, hrest, hid⟩
  · subst hst
    dsimp only
    rw [hid, hpack]
  · subst hst
    dsimp only
    rw [hid, hpack]
  · subst hst
    dsimp only
    rw [hid, hpack]

theorem c4_witness :
    (135168 : ℤ) = Int.lor (Int.lor (Int.lor (((1546272000000 : ℤ) - twepoch) <<< (22 : ℤ))
        ((1 : ℤ) <<< (17 : ℤ))) ((1 : ℤ) <<< (12 : ℤ))) 0 :=
  c4_packs_fields ⟨1, 1, 0, 0, -1⟩ [1546272000000] 135168 ⟨1, 1, 1, 0, 1546272000000⟩ []
    (by decide)

/-- Claim C5: decoding a minted identifier with the documented shifts,
`(id >> 12) & 31` and `(id >> 17) & 31`, recovers the instance's exact
`worker_id` and `data_center_id`. -/
theorem c5_field_roundtrip (st : IdWorker) (clock : List ℤ) (id : ℤ) (st' : IdWorker)
    (rest : List ℤ) (hwf : WF st) (h : next_id st clock = (.minted id, st', rest)) :
    decode_worker_id id = st.worker_id ∧ decode_data_center_id id = st.data_center_id := by
  obtain ⟨hid, hs0, hs1⟩ := minted_id_form hwf h
  obtain ⟨hw0, hw1, hd0, hd1, -, -⟩ := hwf
  rw [decode_worker_id_eq, decode_data_center_id_eq, hid]
  constructor <;> omega

theorem c5_witness :
    decode_worker_id 135168 = 1 ∧ decode_data_center_id 135168 = 1 :=
  c5_field_roundtrip ⟨1, 1, 0, 0, -1⟩ [1546272000000] 135168 ⟨1, 1, 1, 0, 1546272000000⟩ []
    (by decide) (by decide)

/-- Claim C6: construction fails (with `InputError`, the source's
`InvalidIdentity`) exactly when an argument is negative or exceeds 31; in
particular `new 31 31` succeeds while `new 32 0` and `new (-1) 0` fail, and a
successful construction starts with `last_timestamp = -1` and `sequence = 0`. -/
theorem c6_new_validates_identity (w d : ℤ) :
    ((IdWorker.new w d).isOk = true ↔ 0 ≤ w ∧ w ≤ 31 ∧ 0 ≤ d ∧ d ≤ 31)
    ∧ (IdWorker.new 31 31).isOk = true
    ∧ (IdWorker.new 32 0).isOk = false
    ∧ (IdWorker.new (-1) 0).isOk = false
    ∧ ∀ st, IdWorker.new w d = .ok st →
        st.last_timestamp = -1 ∧ st.sequence = 0 ∧ st.worker_id = w ∧ st.data_center_id = d := by
  refine ⟨?_, by decide, by decide, by decide, ?_⟩
  · unfold IdWorker.new
    rw [show max_worker_id = (31 : ℤ) by decide, show max_data_center_id = (31 : ℤ) by decide]
    by_cases h1 : w > 31 ∨ w < 0
    · rw [if_pos h1]
      simp only [Except.isOk, Except.toBool]
      constructor
      · intro hfalse
        exact absurd hfalse (by simp)
      · intro hr
        omega
    · rw [if_neg h1]
      by_cases h2 : d > 31 ∨ d < 0
      · rw [if_pos h2]
        simp only [Except.isOk, Except.toBool]
        constructor
        · intro hfalse
          exact absurd hfalse (by simp)
        · intro hr
          omega
      · rw [if_neg h2]
        simp only [Except.isOk, Except.toBool]
        constructor
        · intro _
          omega
        · intro _
          trivial
  · intro st hst
    unfold IdWorker.new at hst
    by_cases h1 : w > max_worker_id ∨ w < 0
    · rw [if_pos h1] at hst
      exact absurd hst (by simp)
    · rw [if_neg h1] at hst
      by_cases h2 : d > max_data_center_id ∨ d < 0
      · rw [if_pos h2] at hst
        exact absurd hst (by simp)
      · rw [if_neg h2] at hst
        simp only [Except.ok.injEq] at hst
        rw [← hst]
        exact ⟨rfl, rfl, rfl, rfl⟩

theorem c6_witness :
    (IdWorker.new 32 0).isOk = false ∧ (IdWorker.new (-1) 0).isOk = false
      ∧ (IdWorker.new 31 31).isOk = true :=
  ⟨(c6_new_validates_identity 32 0).2.2.1, (c6_new_validates_identity (-1) 0).2.2.2.1,
    (c6_new_validates_identity 31 31).2.1⟩

/-- Claim C7: across one `_next_id` step the sequence stays in `[0, 4095]`,
resets to 0 when the observed millisecond is strictly greater than
`last_timestamp`, and becomes `(sequence + 1) % 4096` when it is equal. -/
theorem c7_sequence_rule (st : IdWorker) (t : ℤ) (ts : List ℤ) (hwf : WF st) :
    (0 ≤ (next_id st (t :: ts)).2.1.sequence ∧ (next_id st (t :: ts)).2.1.sequence ≤ 4095)
    ∧ (st.last_timestamp < t → (next_id st (t :: ts)).2.1.sequence = 0)
    ∧ (st.last_timestamp = t →
        (next_id st (t :: ts)).2.1.sequence = (st.sequence + 1) % 4096) := by
  obtain ⟨-, -, -, -, hs0, hs1⟩ := hwf
  simp only [next_id]
  by_cases h1 : st.last_timestamp > t
  · rw [if_pos h1]
    exact ⟨⟨hs0, hs1⟩, fun hlt => absurd hlt (by omega), fun heq => absurd heq (by omega)⟩
  · rw [if_neg h1]
    by_cases h2 : st.last_timestamp = t
    · rw [if_pos h2]
      by_cases h3 : Int.land (st.sequence + 1) sequence_mask = 0
      · rw [if_pos h3]
        cases htill : till_next_millis st.last_timestamp ts with
        | none =>
          dsimp only
          rw [land_sequence_mask] at h3 ⊢
          exact ⟨⟨by omega, by omega⟩, fun hlt => absurd hlt (by omega), fun _ => rfl⟩
        | some p =>
          obtain ⟨t2, ts2⟩ := p
          dsimp only
          rw [land_sequence_mask] at h3 ⊢
          exact ⟨⟨by omega, by omega⟩, fun hlt => absurd hlt (by omega), fun _ => rfl⟩
      · rw [if_neg h3]
        dsimp only
        rw [land_sequence_mask] at h3 ⊢
        exact ⟨⟨by omega, by omega⟩, fun hlt => absurd hlt (by omega), fun _ => rfl⟩
    · have hlt : st.last_timestamp < t := lt_of_le_of_ne (not_lt.mp h1) h2
      rw [if_neg h2]
      dsimp only
      exact ⟨⟨le_refl 0, by norm_num⟩, fun _ => rfl, fun heq => absurd heq (by omega)⟩

theorem c7_witness :
    (0 ≤ (next_id ⟨0, 0, 0, 5, 100⟩ [100]).2.1.sequence
      ∧ (next_id ⟨0, 0, 0, 5, 100⟩ [100]).2.1.sequence ≤ 4095)
    ∧ ((100 : ℤ) < 100 → (next_id ⟨0, 0, 0, 5, 100⟩ [100]).2.1.sequence = 0)
    ∧ ((100 : ℤ) = 100 →
        (next_id ⟨0, 0, 0, 5, 100⟩ [100]).2.1.sequence = (5 + 1) % 4096) :=
  c7_sequence_rule ⟨0, 0, 0, 5, 100⟩ 100 [] (by decide)

/-- Claim C8: all ids minted by a run of `_next_id` calls on one instance
under clock readings that never regress are pairwise distinct. -/
theorem c8_mintN_distinct (n : Nat) (st : IdWorker) (clock : List ℤ) (ids : List ℤ)
    (st' : IdWorker) (clock' : List ℤ) (hwf : WF st)
    (hchain : List.Chain' (· ≤ ·) clock)
    (h : mintN st clock n = some (ids, st', clock')) : ids.Nodup := by
  cases n with
  | zero =>
    simp only [mintN, Option.some.injEq, Prod.mk.injEq] at h
    rw [← h.1]
    exact List.nodup_nil
  | succ n =>
    simp only [mintN] at h
    cases h1 : next_id st clock with
    | mk outcome p =>
      obtain ⟨st1, clock1⟩ := p
      rw [h1] at h
      cases outcome with
      | raised e => simp at h
      | diverged => simp at h
      | minted id1 =>
        dsimp only at h
        cases h2 : mintN st1 clock1 n with
        | none =>
          rw [h2] at h
          simp at h
        | some q =>
          obtain ⟨ids1, st2, clock2⟩ := q
          rw [h2] at h
          simp only [Option.some.injEq, Prod.mk.injEq] at h
          obtain ⟨hids, -, -⟩ := h
          obtain ⟨hwf1, hchain1, hall1, hwid, hdid, hid1⟩ := next_id_minted_step hwf hchain h1
          have hch := mintN_chain n st1 clock1 ids1 st2 clock2 hwf1 hchain1 hall1 h2
          have hpk : pack st1.last_timestamp st1.data_center_id st1.worker_id st1.sequence
              = id1 := by
            rw [hwid, hdid, ← hid1]
          rw [hpk] at hch
          rw [← hids]
          have hpw : List.Pairwise (· < ·) (id1 :: ids1) := List.chain'_iff_pairwise.mp hch
          exact hpw.imp fun hab => ne_of_lt hab

theorem c8_witness :
    mintN ⟨1, 1, 0, 0, -1⟩ [1546272000000, 1546272000000, 1546272000000] 3
        = some ([135168, 135169, 135170], ⟨1, 1, 3, 2, 1546272000000⟩, [])
      ∧ ([135168, 135169, 135170] : List ℤ).Nodup :=
  ⟨by decide,
    c8_mintN_distinct 3 ⟨1, 1, 0, 0, -1⟩ [1546272000000, 1546272000000, 1546272000000]
      [135168, 135169, 135170] ⟨1, 1, 3, 2, 1546272000000⟩ [] (by decide) (by simp)
      (by decide)⟩

/-- Claim C9: the effective `get_id` (the no-argument variant that shadows the
user-agent one) can only fail by raising `InvalidSystemClock`; in particular
`InvalidUserAgentError` is unreachable from it. -/
theorem c9_get_id_error_only_clock (st : IdWorker) (clock : List ℤ) (e : IdError)
    (st' : IdWorker) (rest : List ℤ) (h : get_id st clock = (.raised e, st', rest)) :
    e = .invalidSystemClock st.last_timestamp := by
  unfold get_id at h
  cases hn : next_id st clock with
  | mk outcome p =>
    obtain ⟨st1, c1⟩ := p
    rw [hn] at h
    cases outcome with
    | minted id => simp at h
    | diverged => simp at h
    | raised e1 =>
      dsimp only at h
      simp only [Prod.mk.injEq, GetIdOutcome.raised.injEq] at h
      obtain ⟨he, -, -⟩ := h
      rw [← he]
      exact (next_id_raised_inv hn).1

theorem c9_witness :
    get_id ⟨0, 0, 0, 0, 10⟩ [9] = (.raised (.invalidSystemClock 10), ⟨0, 0, 0, 0, 10⟩, [])
      ∧ IdError.invalidSystemClock 10 = IdError.invalidSystemClock 10 :=
  ⟨by decide,
    c9_get_id_error_only_clock ⟨0, 0, 0, 0, 10⟩ [9] (.invalidSystemClock 10)
      ⟨0, 0, 0, 0, 10⟩ [] (by decide)⟩

/-- Claim C10: a minted id is non-negative and fits below the 63-bit boundary
(41-bit timestamp field above the 5+5+12 low bits) exactly when the recorded
timestamp lies in `[twepoch, twepoch + 2^41)`; a timestamp before the epoch
yields a negative identifier. -/
theorem c10_id_bit_range (st : IdWorker) (clock : List ℤ) (id : ℤ) (st' : IdWorker)
    (rest : List ℤ) (hwf : WF st) (h : next_id st clock = (.minted id, st', rest)) :
    ((0 ≤ id ∧ id < 2 ^ 63) ↔
      (twepoch ≤ st'.last_timestamp ∧ st'.last_timestamp < twepoch + 2 ^ 41))
    ∧ (st'.last_timestamp < twepoch → id < 0) := by
  obtain ⟨hid, hs0, hs1⟩ := minted_id_form hwf h
  obtain ⟨hw0, hw1, hd0, hd1, -, -⟩ := hwf
  rw [hid]
  omega

theorem c10_witness :
    ((0 ≤ (135168 : ℤ) ∧ (135168 : ℤ) < 2 ^ 63) ↔
      (twepoch ≤ (1546272000000 : ℤ) ∧ (1546272000000 : ℤ) < twepoch + 2 ^ 41))
    ∧ ((1546272000000 : ℤ) < twepoch → (135168 : ℤ) < 0) :=
  c10_id_bit_range ⟨1, 1, 0, 0, -1⟩ [1546272000000] 135168 ⟨1, 1, 1, 0, 1546272000000⟩ []
    (by decide) (by decide)

/-- The source's derived constants evaluate to the documented values:
`max_worker_id = max_data_center_id = 31`, `sequence_mask = 4095`, and the
shifts are 12, 17 and 22. -/
theorem derived_constants :
    max_worker_id = 31 ∧ max_data_center_id = 31 ∧ sequence_mask = 4095
      ∧ worker_id_shift = 12 ∧ data_center_id_shift = 17 ∧ timestamp_left_shift = 22 := by
  decide

end Migrate
